import Mathlib

/-!
Verification development for the chatIRC daemon (an IRC server written in
pre-1.0 Rust).  The definitions below are a shallow embedding of the parts of
the source that the verified properties speak about:

* `src/src/msg/raw.rs`   — the `RawMessage` wire codec (`new_raw`, `parse`,
  `set_prefix` and the accessors);
* `src/src/util.rs`      — `valid_nick`, `valid_channel` and
  `HostMask::matches`;
* `src/src/channel/*`    — the `Channel`/`Member` state, `add_member`,
  `remove_member`, `member_with_id` and friends;
* `src/src/channel/util.rs` — `ChannelMode`, `Action`, `has_parameter` and the
  mode-string parser `modes_do`;
* `src/src/msg/handlers/{join,mode,msg}.rs` — the JOIN, MODE and
  PRIVMSG/NOTICE channel handlers.

Bytes are modelled as `Nat` (the source's `u8` values all stay below 256 and
no byte arithmetic overflows), strings as `List Char` or byte lists, and hash
maps as association lists with insert-overwrite semantics.  `uint` (64-bit)
index arithmetic in `set_prefix` can wrap around in the source; it is modelled
with explicit `% 2 ^ 64` wrapping (`uintSize`, `uadd`, `usub`).
-/

namespace Irc

/-- Offsets into the raw byte buffer, the source's `ASlice` (`raw.rs`).  The
source field `end` is called `stop` here (`end` is a Lean keyword). -/
structure ASlice where
  start : Nat
  stop : Nat
deriving DecidableEq, Repr

/-- `ASlice::slice_vec`: the bytes `v[start..stop]`. -/
def ASlice.sliceVec (s : ASlice) (v : List Nat) : List Nat :=
  (v.drop s.start).take (s.stop - s.start)

/-- The source's `RawMessage` (`raw.rs`): a raw byte buffer plus offset slices
for the prefix, the command and the parameters.  The source field `prefix` is
called `prefixSlice` here. -/
structure RawMessage where
  raw_message : List Nat
  prefixSlice : Option ASlice
  command : ASlice
  params : List ASlice
deriving DecidableEq, Repr

/-- `position` (`raw.rs`): index of the first occurrence of `needle` as a
contiguous sub-list, via `windows(len).position`.  (For an empty needle the
source would panic in `windows(0)`; it is only ever called with `" :"`.) -/
def position : List Nat → List Nat → Option Nat
  | [], _ => none
  | x :: t, needle =>
    if needle.isPrefixOf (x :: t) then some 0 else (position t needle).map (· + 1)

/-- `position_elem` of the Rust standard library: index of the first
occurrence of a single element. -/
def position_elem (x : Nat) : List Nat → Option Nat
  | [] => none
  | y :: t => if y = x then some 0 else (position_elem x t).map (· + 1)

/-- Rust's `slice::split` on one separator byte: always yields at least one
(possibly empty) piece. -/
def splitOnByte (sep : Nat) : List Nat → List (List Nat)
  | [] => [[]]
  | b :: t =>
    if b = sep then [] :: splitOnByte sep t
    else
      match splitOnByte sep t with
      | h :: r => (b :: h) :: r
      | [] => [[b]]

/-- The byte output of the parameter loop of `RawMessage::new_raw`: every
parameter is preceded by `' '`, and the last one additionally by `':'` (the
condition guarding the colon is commented out in the source, so the colon is
always emitted for the last parameter). -/
def paramBytes : List (List Nat) → List Nat
  | [] => []
  | [p] => 32 :: 58 :: p
  | p :: ps => 32 :: (p ++ paramBytes ps)

/-- The slice output of the parameter loop of `RawMessage::new_raw`, starting
from offset `start` (the end of the command slice). -/
def paramSlices (start : Nat) : List (List Nat) → List ASlice
  | [] => []
  | [p] => [⟨start + 2, start + 2 + p.length⟩]
  | p :: ps => ⟨start + 1, start + 1 + p.length⟩ :: paramSlices (start + 1 + p.length) ps

/-- `RawMessage::new_raw` (`raw.rs`): renders `[":" prefix " "] command
{" " param}* " :" last-param` and records the slices.  The command is given by
its byte representation (the output of `Command::to_bytes`). -/
def RawMessage.new_raw (command : List Nat) (params : List (List Nat))
    (pre : Option (List Nat)) : RawMessage :=
  let preB : List Nat := match pre with
    | some p => 58 :: (p ++ [32])
    | none => []
  let preSl : Option ASlice := pre.map (fun p => ⟨1, p.length + 1⟩)
  let cmdSl : ASlice := ⟨preB.length, preB.length + command.length⟩
  { raw_message := preB ++ command ++ paramBytes params
    prefixSlice := preSl
    command := cmdSl
    params := paramSlices cmdSl.stop params }

/-- The slices the middle-parameter loop of `RawMessage::parse` produces for
the pieces after the command: each starts one past the previous end. -/
def middleSlices (start : Nat) : List (List Nat) → List ASlice
  | [] => []
  | p :: ps => ⟨start, start + p.length⟩ :: middleSlices (start + p.length + 1) ps

/-- The tail of `RawMessage::parse` after the prefix has been handled: `raw`
is the whole line, `msg` the part after the prefix, `preSl` the prefix slice.
Finds the `" :"` sentinel, splits the middle part on `' '`, takes the first
piece as the command and the rest as parameters, appending the trailing one. -/
def RawMessage.parseAfter (raw msg : List Nat) (preSl : Option ASlice) :
    Except String RawMessage :=
  let cmd_start : Nat := match preSl with
    | some v => v.stop + 1
    | none => 0
  let cut : List Nat × Option ASlice := match position msg [32, 58] with
    | some trailing_pos =>
      (msg.take trailing_pos, some ⟨cmd_start + trailing_pos + 2, raw.length⟩)
    | none => (msg, none)
  match splitOnByte 32 cut.1 with
  | [] => Except.error "RawMessage does not contain a command."
  | cmd :: rest =>
    let command : ASlice := ⟨cmd_start, cmd_start + cmd.length⟩
    let middles := middleSlices (command.stop + 1) rest
    Except.ok
      { raw_message := raw
        prefixSlice := preSl
        command := command
        params := middles ++ (match cut.2 with | some t => [t] | none => []) }

/-- `RawMessage::parse` (`raw.rs`): strips a `":prefix "` head when the line
starts with `':'` (failing when no `' '` follows), then proceeds with
`parseAfter`. -/
def RawMessage.parse (message : List Nat) : Except String RawMessage :=
  if message.head? = some 58 then
    match position_elem 32 message with
    | some prefix_end =>
      RawMessage.parseAfter message (message.drop (prefix_end + 1)) (some ⟨1, prefix_end⟩)
    | none => Except.error "RawMessage does not contain a command."
  else RawMessage.parseAfter message message none

/-- The source's `prefix()` accessor: the prefix bytes. -/
def RawMessage.preBytes (m : RawMessage) : Option (List Nat) :=
  m.prefixSlice.map (fun s => s.sliceVec m.raw_message)

/-- The byte representation the source's `command()` accessor slices out
(`Command::from_bytes` is then applied to it). -/
def RawMessage.commandBytes (m : RawMessage) : List Nat :=
  m.command.sliceVec m.raw_message

/-- The source's `params()` accessor: the parameter byte slices. -/
def RawMessage.paramsBytes (m : RawMessage) : List (List Nat) :=
  m.params.map (fun s => s.sliceVec m.raw_message)

/-- 2 ^ 64: the modulus of the source's `uint` indices. -/
def uintSize : Nat := 18446744073709551616

/-- Wrapping `uint` addition. -/
def uadd (a b : Nat) : Nat := (a + b) % uintSize

/-- Wrapping `uint` subtraction (the source's `a - b` on `uint`, which wraps
around on underflow). -/
def usub (a b : Nat) : Nat := (a % uintSize + (uintSize - b % uintSize)) % uintSize

/-- Shift both offsets of a slice by `offset`, with wrapping addition, as the
offset-adjustment loop of `set_prefix` does. -/
def ASlice.shift (s : ASlice) (offset : Nat) : ASlice :=
  ⟨uadd s.start offset, uadd s.stop offset⟩

/-- `RawMessage::set_prefix` (`raw.rs`).  With an existing prefix the buffer
is rewritten as `":" + new + raw[old.stop ..]` (the byte at `old.stop` is the
`' '` after the old prefix), the stored prefix end is moved and every other
slice is shifted by `offset = new.len() - old.stop + 1` (wrapping `uint`
arithmetic).  Without an existing prefix, `":" + new + " "` is prepended and
the slices are shifted by `new.len() + 2` — but the stored prefix slice stays
`none`, exactly as in the source. -/
def RawMessage.set_prefix (m : RawMessage) (p : List Nat) : RawMessage :=
  match m.prefixSlice with
  | some old =>
    let offset := uadd (usub p.length old.stop) 1
    { raw_message := 58 :: (p ++ m.raw_message.drop old.stop)
      prefixSlice := some ⟨old.start, uadd old.stop offset⟩
      command := m.command.shift offset
      params := m.params.map (fun s => s.shift offset) }
  | none =>
    let offset := (p.length + 2) % uintSize
    { raw_message := 58 :: (p ++ 32 :: m.raw_message)
      prefixSlice := none
      command := m.command.shift offset
      params := m.params.map (fun s => s.shift offset) }

/-! ### Validation helpers (`util.rs`) -/

/-- An ASCII letter (the `'a'..'z' | 'A'..'Z'` arms). -/
def letterChar (c : Char) : Bool :=
  (97 ≤ c.toNat && c.toNat ≤ 122) || (65 ≤ c.toNat && c.toNat ≤ 90)

/-- The RFC 2812 `special` class `%x5B-60 / %x7B-7D` (the
`'\x5B'..'\x60' | '\x7B'..'\x7D'` arms). -/
def specialChar (c : Char) : Bool :=
  (91 ≤ c.toNat && c.toNat ≤ 96) || (123 ≤ c.toNat && c.toNat ≤ 125)

/-- An ASCII digit (the `'0'..'9'` arm). -/
def digitChar (c : Char) : Bool :=
  48 ≤ c.toNat && c.toNat ≤ 57

/-- The loop body of `valid_nick` (`util.rs`), indexed by the running
character index `i`: at `i = 9` the function returns `false`; the first
character must be a letter or special, later ones may also be digits or
`'-'`. -/
def valid_nick_from : Nat → List Char → Bool
  | _, [] => true
  | i, c :: cs =>
    if i = 9 then false
    else if i = 0 then
      (if letterChar c || specialChar c then valid_nick_from 1 cs else false)
    else
      (if letterChar c || digitChar c || specialChar c || c = '-' then
        valid_nick_from (i + 1) cs
      else false)

/-- `valid_nick` (`util.rs`). -/
def valid_nick (s : List Char) : Bool := valid_nick_from 0 s

/-- The loop body of `valid_channel` (`util.rs`): the first character must be
`'#'` or `'&'`; later characters must not be `' '`, `'\x07'` or `','`. -/
def valid_channel_from : Nat → List Char → Bool
  | _, [] => true
  | i, c :: cs =>
    if i = 0 then
      (if c = '#' || c = '&' then valid_channel_from 1 cs else false)
    else if c = ' ' || c.toNat = 7 || c = ',' then false
    else valid_channel_from (i + 1) cs

/-- `valid_channel` (`util.rs`). -/
def valid_channel (s : List Char) : Bool := valid_channel_from 0 s

/-- The nickname grammar as the specification states it:
`( letter / special ) 0*8( letter / digit / special / "-" )` — a first
character and at most eight further ones.  (Stated from the spec's words, for
comparison with `valid_nick`.) -/
def spec_nick (s : List Char) : Bool :=
  match s with
  | [] => false
  | c :: cs =>
    (letterChar c || specialChar c) && decide (cs.length ≤ 8) &&
      cs.all (fun ch => letterChar ch || digitChar ch || specialChar ch || ch = '-')

/-- The channel-name rule as the specification states it: starts with `'#'`
or `'&'`, contains no `' '`, `','` or `'\x07'`, and has length at least 2.
(Stated from the spec's words, for comparison with `valid_channel`.) -/
def spec_channel (s : List Char) : Bool :=
  (match s.head? with
    | some c => c = '#' || c = '&'
    | none => false) &&
    decide (2 ≤ s.length) &&
    s.all (fun c => !(c = ' ' || c.toNat = 7 || c = ','))

/-- What `valid_channel` actually accepts, in closed form: the empty string,
or a string whose head is `'#'` or `'&'` and whose tail avoids `' '`, `','`
and `'\x07'` (there is no minimum-length check in the source). -/
def valid_channel_closed (s : List Char) : Bool :=
  match s with
  | [] => true
  | c :: cs => (c = '#' || c = '&') && cs.all (fun ch => !(ch = ' ' || ch.toNat = 7 || ch = ','))

/-! ### Host masks (`util.rs`) -/

/-- The inner `while` loop of `HostMask::matches`: consume characters of the
candidate until the next one equals `next` (or the candidate runs out). -/
def skipUntilChar (next : Char) : List Char → List Char
  | [] => []
  | c :: cs => if c ≠ next then skipUntilChar next cs else c :: cs

/-- `HostMask::matches` (`util.rs`): `pat` is the stored mask, `s` the
candidate string.  A `'*'` looks at the following mask character and consumes
candidate characters until it appears; a `'*'` at the end of the mask matches
the whole rest; any other mask character must match the next candidate
character exactly; at the end the candidate must be exhausted. -/
def HostMask.matches : List Char → List Char → Bool
  | [], s => s.isEmpty
  | c :: cs, s =>
    if c = '*' then
      match cs with
      | [] => true
      | next :: _ => HostMask.matches cs (skipUntilChar next s)
    else
      match s with
      | [] => false
      | t :: ts => if c = t then HostMask.matches cs ts else false

/-- Glob matching as the claim describes it, written from the spec's words:
matching proceeds left-to-right; `*` consumes characters of `s` until the
next mask character matches (via `dropWhile`); a trailing `*` matches any
remainder; a non-`*` mask character must equal the corresponding character of
`s` literally; the whole of `s` must be consumed. -/
def globMatch : List Char → List Char → Bool
  | [], s => decide (s = [])
  | ['*'], _ => true
  | '*' :: next :: ms, s => globMatch (next :: ms) (s.dropWhile (fun c => c ≠ next))
  | _ :: _, [] => false
  | c :: ms, t :: ts => c = t && globMatch ms ts

/-! ### Channel modes and the mode parser (`channel/util.rs`) -/

/-- `ChannelMode` (`channel/util.rs`), with the discriminants of the source
(the mode letter's byte value). -/
inductive ChannelMode where
  | ChannelCreator      -- b'O' = 79
  | OperatorPrivilege   -- b'o' = 111
  | VoicePrivilege      -- b'v' = 118
  | AnonChannel         -- b'a' = 97
  | InviteOnly          -- b'i' = 105
  | Moderated           -- b'm' = 109
  | MemberOnly          -- b'n' = 110
  | Quiet               -- b'q' = 113
  | Private             -- b'p' = 112
  | Secret              -- b's' = 115
  | ReOpFlag            -- b'r' = 114
  | TopicProtect        -- b't' = 116
  | ChannelKey          -- b'k' = 107
  | UserLimit           -- b'l' = 108
  | BanMask             -- b'b' = 98
  | ExceptionMask       -- b'e' = 101
  | InvitationMask      -- b'I' = 73
deriving DecidableEq, Repr

/-- The derived `FromPrimitive::from_u8` of `ChannelMode`: the mode whose
discriminant is `b`, if any. -/
def channelModeFromU8 (b : Nat) : Option ChannelMode :=
  if b = 79 then some .ChannelCreator
  else if b = 111 then some .OperatorPrivilege
  else if b = 118 then some .VoicePrivilege
  else if b = 97 then some .AnonChannel
  else if b = 105 then some .InviteOnly
  else if b = 109 then some .Moderated
  else if b = 110 then some .MemberOnly
  else if b = 113 then some .Quiet
  else if b = 112 then some .Private
  else if b = 115 then some .Secret
  else if b = 114 then some .ReOpFlag
  else if b = 116 then some .TopicProtect
  else if b = 107 then some .ChannelKey
  else if b = 108 then some .UserLimit
  else if b = 98 then some .BanMask
  else if b = 101 then some .ExceptionMask
  else if b = 73 then some .InvitationMask
  else none

/-- `ChannelMode::has_parameter` (`channel/util.rs`): only the key, the user
limit and the three mask modes take a parameter.  (Notably `o` and `v` do
not.) -/
def ChannelMode.has_parameter (m : ChannelMode) : Bool :=
  match m with
  | .ChannelKey | .UserLimit | .BanMask | .ExceptionMask | .InvitationMask => true
  | _ => false

/-- `Action` (`channel/util.rs`). -/
inductive Action where
  | Add
  | Remove
  | Show
deriving DecidableEq, Repr

/-- The inner `for` loop of `modes_do`: runs the block for every mode letter
of the current mode word, consuming one element of `current` per parameter
taken (`current = current[1..]` after reading `current[1]`).  Returns the
emitted `(action, mode, param)` triples and the remaining `current`. -/
def modesInner (action : Action) :
    List ChannelMode → List (List Nat) →
      List (Action × ChannelMode × Option (List Nat)) × List (List Nat)
  | [], cur => ([], cur)
  | m :: ms, cur =>
    if m.has_parameter && decide (action ≠ Action.Show) then
      let param := cur[1]?
      let cur' := if cur.length > 1 then cur.drop 1 else []
      let r := modesInner action ms cur'
      ((action, m, param) :: r.1, r.2)
    else
      let r := modesInner action ms cur
      ((action, m, none) :: r.1, r.2)

/-- The outer `loop` of `modes_do`, with explicit fuel (each iteration
strictly shrinks `current`, so `current.length` fuel always suffices; see
`modesOuter_fuel_irrelevant`).  A `'+'`/`'-'` head of the mode word selects
`Add`/`Remove`, anything else `Show`; unknown letters are skipped by
`filterMap`.  (On an empty `current` or empty mode word the source indexes
out of bounds and panics; no caller passes those.) -/
def modesOuter : Nat → List (List Nat) → List (Action × ChannelMode × Option (List Nat))
  | 0, _ => []
  | _ + 1, [] => []
  | fuel + 1, h :: t =>
    let ao : Action × Nat := match h.head? with
      | some 43 => (Action.Add, 1)
      | some 45 => (Action.Remove, 1)
      | _ => (Action.Show, 0)
    let modes := (h.drop ao.2).filterMap channelModeFromU8
    let r := modesInner ao.1 modes (h :: t)
    if r.2.length > 1 then r.1 ++ modesOuter fuel (r.2.drop 1) else r.1

/-- `modes_do` (`channel/util.rs`), as the list of `(action, mode, param)`
triples handed to the block. -/
def modes_do (slice : List (List Nat)) : List (Action × ChannelMode × Option (List Nat)) :=
  modesOuter slice.length slice

/-! ### Members and channels (`channel/member.rs`, `channel/mod.rs`) -/

abbrev PeerId := Nat

/-- `Member` (`channel/member.rs`), restricted to the fields the handlers
under verification read: the peer id, the nickname (as bytes), the member's
real host-mask string and the privilege flags.  The source's `PartialEq` for
`Member` compares `id` only. -/
structure Member where
  id : PeerId
  nick : List Nat
  mask : List Char
  flags : List ChannelMode
deriving DecidableEq, Repr

/-- `Member::promote`: insert a flag (`HashSet::insert`). -/
def Member.promote (m : Member) (flag : ChannelMode) : Member :=
  { m with flags := if flag ∈ m.flags then m.flags else flag :: m.flags }

/-- `Member::demote`: remove a flag (`HashSet::remove`). -/
def Member.demote (m : Member) (flag : ChannelMode) : Member :=
  { m with flags := m.flags.filter (fun f => f ≠ flag) }

/-- `Member::has_privilege`. -/
def Member.has_privilege (m : Member) (p : ChannelMode) : Bool := p ∈ m.flags

/-- `Member::is_op`. -/
def Member.is_op (m : Member) : Bool := m.has_privilege .OperatorPrivilege

/-- `Member::has_voice` (`channel/member.rs`): voice OR operator privilege. -/
def Member.has_voice (m : Member) : Bool :=
  m.has_privilege .VoicePrivilege || m.has_privilege .OperatorPrivilege

/-- `Member::mask_matches_any`: does any mask of the set match the member's
own host-mask string? -/
def Member.mask_matches_any (m : Member) (masks : List (List Char)) : Bool :=
  masks.any (fun mask => HostMask.matches mask m.mask)

/-- Lookup in an association-list map (`HashMap::find`). -/
def mapFind {κ α : Type} [DecidableEq κ] (k : κ) : List (κ × α) → Option α
  | [] => none
  | kv :: t => if kv.1 = k then some kv.2 else mapFind k t

/-- Key removal from an association-list map (`HashMap::remove`). -/
def mapErase {κ α : Type} [DecidableEq κ] (k : κ) : List (κ × α) → List (κ × α)
  | [] => []
  | kv :: t => if kv.1 = k then mapErase k t else kv :: mapErase k t

/-- Insert-overwrite into an association-list map (`HashMap::insert`). -/
def mapInsert {κ α : Type} [DecidableEq κ] (k : κ) (v : α) (l : List (κ × α)) :
    List (κ × α) :=
  (k, v) :: mapErase k l

/-- `Channel` (`channel/mod.rs`), restricted to the fields the handlers under
verification read: password, flags, limit, the two membership maps and the
three mask sets.  Nick keys are byte strings; masks are stored as their
character strings. -/
structure Channel where
  password : Option (List Nat)
  flags : List ChannelMode
  limit : Option Nat
  members : List (List Nat × Member)
  nicknames : List (PeerId × List Nat)
  ban_masks : List (List Char)
  except_masks : List (List Char)
  invite_masks : List (List Char)
deriving DecidableEq, Repr

/-- `Channel::member_count`. -/
def Channel.member_count (c : Channel) : Nat := c.members.length

/-- `Channel::has_flag`. -/
def Channel.has_flag (c : Channel) (f : ChannelMode) : Bool := f ∈ c.flags

/-- `Channel::add_flag` (`HashSet::insert`). -/
def Channel.add_flag (c : Channel) (f : ChannelMode) : Channel :=
  { c with flags := if f ∈ c.flags then c.flags else f :: c.flags }

/-- `Channel::remove_flag` (`HashSet::remove`). -/
def Channel.remove_flag (c : Channel) (f : ChannelMode) : Channel :=
  { c with flags := c.flags.filter (fun g => g ≠ f) }

/-- `Channel::member_with_id`: nicknames, then members. -/
def Channel.member_with_id (c : Channel) (client_id : PeerId) : Option Member :=
  match mapFind client_id c.nicknames with
  | some nick => mapFind nick c.members
  | none => none

/-- `Channel::mut_member_with_nick` (as a lookup). -/
def Channel.member_with_nick (c : Channel) (nick : List Nat) : Option Member :=
  mapFind nick c.members

/-- `Channel::add_member` (`channel/mod.rs`): refuses a member whose id is
already present, otherwise inserts into both maps.  Returns the new channel
and the source's `bool`. -/
def Channel.add_member (c : Channel) (m : Member) : Channel × Bool :=
  if (c.member_with_id m.id).isSome then (c, false)
  else
    ({ c with
        nicknames := mapInsert m.id m.nick c.nicknames
        members := mapInsert m.nick m c.members }, true)

/-- `Channel::remove_member` (`channel/mod.rs`). -/
def Channel.remove_member (c : Channel) (id : PeerId) : Channel × Bool :=
  match mapFind id c.nicknames with
  | none => (c, false)
  | some nick =>
    ({ c with
        nicknames := mapErase id c.nicknames
        members := mapErase nick c.members }, true)

/-- Replace the member stored under `nick` by `f` of it (the in-place
mutation through `mut_member_with_nick`). -/
def Channel.updateMemberAt (c : Channel) (nick : List Nat) (f : Member → Member) : Channel :=
  { c with members := c.members.map (fun kv => if kv.1 = nick then (kv.1, f kv.2) else kv) }

/-- The membership invariant the specification states for a channel: every
`nicknames` entry `p ↦ nick` has a `members` entry under `nick` whose stored
member carries id `p`. -/
def nick_id_invariant (c : Channel) : Prop :=
  ∀ p nick, mapFind p c.nicknames = some nick →
    ∃ mem, mapFind nick c.members = some mem ∧ mem.id = p

/-! ### The JOIN handler (`msg/handlers/join.rs`) -/

/-- The observable outcome of `Join::handle_join`. -/
inductive JoinResult where
  | errBadChannelKey
  | alreadyMember
  | errBannedFromChan
  | errInviteOnlyChan
  | errChannelIsFull
  | joined (after : Channel)
deriving DecidableEq, Repr

/-- `Join::handle_join` (`msg/handlers/join.rs`): password, already-member,
ban, invite-only and user-limit checks in the source's order; the first
joiner is promoted to creator and operator; finally the member is added. -/
def Join.handle_join (c : Channel) (m : Member) (password : Option (List Nat)) :
    JoinResult :=
  let passOk : Bool := match c.password with
    | some chan_pass =>
      (match password with
        | some pw => decide (pw = chan_pass)
        | none => false)
    | none => true
  if !passOk then .errBadChannelKey
  else if (c.member_with_id m.id).isSome then .alreadyMember
  else if m.mask_matches_any c.ban_masks && !(m.mask_matches_any c.except_masks) then
    .errBannedFromChan
  else if c.has_flag .InviteOnly && !(m.mask_matches_any c.invite_masks) then
    .errInviteOnlyChan
  else if c.has_flag .UserLimit &&
      (match c.limit with
        | some limit => decide (c.member_count + 1 ≥ limit)
        | none => false) then
    .errChannelIsFull
  else
    let m' := if c.member_count = 0 then
        (m.promote .ChannelCreator).promote .OperatorPrivilege
      else m
    .joined (c.add_member m').1

/-! ### The MODE handler (`msg/handlers/mode.rs`) -/

/-- The observable side effects of `Mode::handle_mode`: the
not-an-operator error reply, the `RPL_CHANNELMODEIS` reply, a broadcast
`MODE` change (`Mode::broadcast_change`), and the emission of a ban / except /
invite list. -/
inductive ModeEffect where
  | errChanOPrivsNeeded
  | channelModeIs (flags : List ChannelMode)
  | modeBroadcast (action : Action) (mode : ChannelMode) (param : Option (List Nat))
  | maskList (mode : ChannelMode) (masks : List (List Char))
deriving DecidableEq, Repr

/-- `uint::to_string` of the source, for the limit echoed in the `MODE`
broadcast. -/
def natToBytes (n : Nat) : List Nat := (Nat.toDigits 10 n).map Char.toNat

/-- `from_str::<uint>` of the source: decimal digits only. -/
def parseUint (bs : List Nat) : Option Nat :=
  if bs.isEmpty then none
  else if bs.all (fun b => decide (48 ≤ b) && decide (b ≤ 57)) then
    some (bs.foldl (fun acc b => acc * 10 + (b - 48)) 0)
  else none

/-- Bytes to characters, for the host-mask strings built by the MODE handler
(`String::from_utf8_lossy`; the identity embedding on the ASCII data the
handlers deal in). -/
def bytesToChars (bs : List Nat) : List Char := bs.map Char.ofNat

/-- Insert into a list modelling a `HashSet` (no duplicates). -/
def setInsert {α : Type} [DecidableEq α] (x : α) (l : List α) : List α :=
  if x ∈ l then l else x :: l

/-- Remove from a list modelling a `HashSet`. -/
def setRemove {α : Type} [DecidableEq α] (x : α) (l : List α) : List α :=
  l.filter (fun y => y ≠ x)

/-- One arm of the big `match mode` in the `modes_do` block of
`Mode::handle_mode`: applies a single `(action, mode, param)` triple to the
channel and returns the effects it emits. -/
def Mode.applyModeEntry (c : Channel)
    (e : Action × ChannelMode × Option (List Nat)) : Channel × List ModeEffect :=
  match e with
  | (action, mode, param) =>
    match mode with
    | .AnonChannel | .InviteOnly | .Moderated | .MemberOnly
    | .Quiet | .Private | .Secret | .ReOpFlag | .TopicProtect =>
      (match action with
        | .Add => (c.add_flag mode, [.modeBroadcast action mode none])
        | .Remove => (c.remove_flag mode, [.modeBroadcast action mode none])
        | .Show => (c, []))
    | .OperatorPrivilege | .VoicePrivilege =>
      (match param with
        | some name =>
          (match c.member_with_nick name with
            | some mem =>
              (match action with
                | .Add =>
                  (c.updateMemberAt name (fun x => x.promote mode),
                    [.modeBroadcast action mode (some mem.nick)])
                | .Remove =>
                  (c.updateMemberAt name (fun x => x.demote mode),
                    [.modeBroadcast action mode (some mem.nick)])
                | .Show => (c, []))
            | none => (c, []))
        | none => (c, []))
    | .ChannelKey =>
      (match action with
        | .Add =>
          if param.isSome then
            ({ c with password := param }, [.modeBroadcast action mode none])
          else (c, [])
        | .Remove => ({ c with password := none }, [.modeBroadcast action mode none])
        | .Show => (c, []))
    | .UserLimit =>
      (match action with
        | .Add =>
          (match param.bind parseUint with
            | some limit =>
              ({ c with limit := some limit },
                [.modeBroadcast action mode (some (natToBytes limit))])
            | none => (c, []))
        | .Remove => ({ c with limit := none }, [.modeBroadcast action mode none])
        | .Show => (c, []))
    | .BanMask =>
      (match param with
        | some mask =>
          (match action with
            | .Add => ({ c with ban_masks := setInsert (bytesToChars mask) c.ban_masks }, [])
            | .Remove => ({ c with ban_masks := setRemove (bytesToChars mask) c.ban_masks }, [])
            | .Show => (c, []))
        | none => (c, [.maskList mode c.ban_masks]))
    | .ExceptionMask =>
      (match param with
        | some mask =>
          (match action with
            | .Add => ({ c with except_masks := setInsert (bytesToChars mask) c.except_masks }, [])
            | .Remove => ({ c with except_masks := setRemove (bytesToChars mask) c.except_masks }, [])
            | .Show => (c, []))
        | none => (c, [.maskList mode c.except_masks]))
    | .InvitationMask =>
      (match param with
        | some mask =>
          (match action with
            | .Add => ({ c with invite_masks := setInsert (bytesToChars mask) c.invite_masks }, [])
            | .Remove => ({ c with invite_masks := setRemove (bytesToChars mask) c.invite_masks }, [])
            | .Show => (c, []))
        | none => (c, [.maskList mode c.invite_masks]))
    | .ChannelCreator => (c, [])

/-- Fold `applyModeEntry` over the triples `modes_do` produced, collecting
the effects in order. -/
def Mode.applyModes (c : Channel) :
    List (Action × ChannelMode × Option (List Nat)) → Channel × List ModeEffect
  | [] => (c, [])
  | e :: es =>
    let r := Mode.applyModeEntry c e
    let rest := Mode.applyModes r.1 es
    (rest.1, r.2 ++ rest.2)

/-- `Mode::handle_mode` (`msg/handlers/mode.rs`) for a channel target:
with more than one parameter the sender must be a channel operator, then the
mode string is parsed with `modes_do` and applied; with a single parameter
the current flags are replied. -/
def Mode.handle_mode (c : Channel) (sender_id : PeerId) (params : List (List Nat)) :
    Channel × List ModeEffect :=
  let is_op : Bool := match c.member_with_id sender_id with
    | some mem => mem.is_op
    | none => false
  if params.length > 1 then
    if !is_op then (c, [.errChanOPrivsNeeded])
    else Mode.applyModes c (modes_do (params.drop 1))
  else (c, [.channelModeIs c.flags])

/-! ### The PRIVMSG/NOTICE handler (`msg/handlers/msg.rs`) -/

/-- The observable outcome of `Msg::handle_msg`: the message is dropped, or
delivered to every member except the sender, or broadcast to everyone (the
sender was no member and the channel restricts nothing). -/
inductive MsgOutcome where
  | dropped
  | deliveredExceptSender (recipients : List Member)
  | broadcastAll (recipients : List Member)
deriving DecidableEq, Repr

/-- `Msg::handle_msg` (`msg/handlers/msg.rs`).  With `MemberOnly` or
`VoicePrivilege` set on the channel, a non-member is dropped, and with
`VoicePrivilege` set a sender without voice is dropped; otherwise the message
goes to every member but the sender (member comparison is by id). -/
def Msg.handle_msg (c : Channel) (client_id : PeerId) : MsgOutcome :=
  let maybe_member := c.member_with_id client_id
  if c.has_flag .MemberOnly || c.has_flag .VoicePrivilege then
    match maybe_member with
    | some sender =>
      if c.has_flag .VoicePrivilege && !sender.has_voice then .dropped
      else
        .deliveredExceptSender
          ((c.members.map (fun kv => kv.2)).filter (fun mem => decide (mem.id ≠ sender.id)))
    | none => .dropped
  else
    match maybe_member with
    | some sender =>
      .deliveredExceptSender
        ((c.members.map (fun kv => kv.2)).filter (fun mem => decide (mem.id ≠ sender.id)))
    | none => .broadcastAll (c.members.map (fun kv => kv.2))

/-! ### Derived notions and concrete states used by the theorems below -/

/-- The byte output of the middle-parameter part of the renderer: every
middle parameter preceded by a `' '`. -/
def midBytes : List (List Nat) → List Nat
  | [] => []
  | m :: ms => 32 :: (m ++ midBytes ms)

/-- Two-member channel `#dev` with flag `l` set and limit 3 (the spec's
key-and-limit scenario): members `a` (the creator/operator) and `b`. -/
def memA : Member := ⟨0, [97], [], [.ChannelCreator, .OperatorPrivilege]⟩

def memB : Member := ⟨1, [98], [], []⟩

def memC : Member := ⟨2, [99], [], []⟩

def chanLimit3 : Channel :=
  ⟨none, [.TopicProtect, .MemberOnly, .UserLimit], some 3,
    [([97], memA), ([98], memB)], [(0, [97]), (1, [98])], [], [], []⟩

/-- Channel with an operator `op` and a plain member `alice`, for the
`MODE #chan +o alice` scenario. -/
def memOp : Member := ⟨0, [111, 112], [], [.OperatorPrivilege]⟩

def memAlice : Member := ⟨1, [97, 108, 105, 99, 101], [], []⟩

def chanModeDemo : Channel :=
  ⟨none, [], none,
    [([111, 112], memOp), ([97, 108, 105, 99, 101], memAlice)],
    [(0, [111, 112]), (1, [97, 108, 105, 99, 101])], [], [], []⟩

/-- One-member channel holding nick `a` for peer 0, and a second member
carrying the same nick `a` but peer id 1. -/
def memNickA : Member := ⟨0, [97], [], []⟩

def memNickA2 : Member := ⟨1, [97], [], []⟩

def chanPair : Channel := ⟨none, [], none, [([97], memNickA)], [(0, [97])], [], [], []⟩

/-- The parse of the line `"JOIN"` (no prefix). -/
def msgJoinNoPre : RawMessage := ⟨[74, 79, 73, 78], none, ⟨0, 4⟩, []⟩

/-- The parse of the line `":a B"` (prefix `a`, command `B`). -/
def msgWithPre : RawMessage := ⟨[58, 97, 32, 66], some ⟨1, 2⟩, ⟨3, 4⟩, []⟩

/-- Moderated-style channel (channel flag `v` as the source checks it) whose
only member is the operator `op`. -/
def chanVoice : Channel :=
  ⟨none, [.VoicePrivilege], none, [([111, 112], memOp)], [(0, [111, 112])], [], [], []⟩

/-! ## Theorems -/

/-- The inner mode loop never grows the remaining argument list. -/
theorem modesInner_snd_length (a : Action) :
    ∀ (ms : List ChannelMode) (cur : List (List Nat)),
      (modesInner a ms cur).2.length ≤ cur.length := by
  intro ms
  induction ms with
  | nil => intro cur; simp [modesInner]
  | cons m ms ih =>
    intro cur
    simp only [modesInner]
    split
    · refine le_trans (ih _) ?_
      split
      · simp [Nat.sub_le]
      · simp
    · exact ih cur

/-- Any fuel of at least `current.length` computes the same mode list: the
fuel `slice.length` used by `modes_do` is enough, so the fuel is only a
termination device, not part of the semantics. -/
theorem modesOuter_fuel :
    ∀ (f1 : Nat) (f2 : Nat) (cur : List (List Nat)),
      cur.length ≤ f1 → cur.length ≤ f2 → modesOuter f1 cur = modesOuter f2 cur := by
  intro f1
  induction f1 with
  | zero =>
    intro f2 cur h1 _
    have : cur = [] := List.length_eq_zero.mp (Nat.le_zero.mp h1)
    subst this
    cases f2 <;> simp [modesOuter]
  | succ f1 ih =>
    intro f2 cur h1 h2
    cases cur with
    | nil => cases f2 <;> simp [modesOuter]
    | cons h t =>
      cases f2 with
      | zero => simp at h2
      | succ f2 =>
        simp only [modesOuter]
        have key : ∀ (res : List (Action × ChannelMode × Option (List Nat)) × List (List Nat)),
            res.2.length ≤ (h :: t).length →
            (if res.2.length > 1 then res.1 ++ modesOuter f1 (res.2.drop 1) else res.1) =
              (if res.2.length > 1 then res.1 ++ modesOuter f2 (res.2.drop 1) else res.1) := by
          intro res hres
          split
          · next hgt =>
            rw [ih f2 (res.2.drop 1) ?_ ?_]
            · rw [List.length_drop]
              simp only [List.length_cons] at h1 hres
              omega
            · rw [List.length_drop]
              simp only [List.length_cons] at h2 hres
              omega
          · rfl
        exact key _ (modesInner_snd_length _ _ _)

/-- C3: the JOIN user-limit check.  The source rejects when
`member_count + 1 >= limit`, so a channel with limit 3 and two members
already rejects the third joiner — the claim (and the spec's scenario 5)
says this join succeeds, since `2 + 1 > 3` does not hold.  This theorem
evaluates the handler at that failing input. -/
theorem C3_userlimit_off_by_one :
    Join.handle_join chanLimit3 memC none = JoinResult.errChannelIsFull ∧
      ¬ chanLimit3.member_count + 1 > 3 := by
  constructor
  · rfl
  · decide

/-- C4: `MODE #chan +o alice` issued by the operator `op`.  Because
`ChannelMode::has_parameter` returns `false` for `o` and `v`, `modes_do`
never hands the nick parameter to the `o`/`v` arm: the parsed triple is
`(Add, OperatorPrivilege, none)`, the member is not promoted, the channel is
returned unchanged, and the only effect is the exception-mask list emitted
while re-reading `"alice"` as a mode word (`e` with `Show`).  This theorem
evaluates the handler at that failing input. -/
theorem C4_mode_o_parameter_lost :
    modes_do [[43, 111], [97, 108, 105, 99, 101]] =
      [(Action.Add, ChannelMode.OperatorPrivilege, none),
        (Action.Show, ChannelMode.AnonChannel, none),
        (Action.Show, ChannelMode.UserLimit, none),
        (Action.Show, ChannelMode.InviteOnly, none),
        (Action.Show, ChannelMode.ExceptionMask, none)] ∧
    Mode.handle_mode chanModeDemo 0 [[35, 99], [43, 111], [97, 108, 105, 99, 101]] =
      (chanModeDemo, [ModeEffect.maskList ChannelMode.ExceptionMask []]) := by
  constructor
  · rfl
  · rfl

/-- At index 1 or more, `valid_nick_from` accepts exactly the strings of rest
characters that fit into the remaining length budget (9 characters in all). -/
theorem valid_nick_from_pos :
    ∀ (cs : List Char) (i : Nat), 1 ≤ i → i ≤ 9 →
      valid_nick_from i cs =
        (decide (cs.length + i ≤ 9) &&
          cs.all (fun c => letterChar c || digitChar c || specialChar c || c = '-')) := by
  intro cs
  induction cs with
  | nil =>
    intro i h1 h9
    simp only [valid_nick_from, List.length_nil, List.all_nil, Bool.and_true, Nat.zero_add]
    exact ((decide_eq_true (by omega)).symm)
  | cons c cs ih =>
    intro i h1 h9
    simp only [valid_nick_from]
    by_cases h9e : i = 9
    · subst h9e
      rw [if_pos rfl]
      have hlen : ¬ ((c :: cs).length + 9 ≤ 9) := by
        simp only [List.length_cons]
        omega
      rw [decide_eq_false hlen, Bool.false_and]
    · rw [if_neg h9e, if_neg (by omega : ¬ i = 0)]
      split
      · next hc =>
        rw [ih (i + 1) (by omega) (by omega)]
        have harith : cs.length + (i + 1) = (c :: cs).length + i := by
          simp only [List.length_cons]
          omega
        rw [harith, List.all_cons, hc, Bool.true_and]
      · next hc =>
        simp [List.all_cons, hc]

/-- C7 (counterexample): `valid_nick` accepts the empty string, which the
claimed grammar `( letter / special ) 0*8( ... )` rejects. -/
theorem C7_empty_nick_accepted : valid_nick [] = true ∧ spec_nick [] = false := by
  constructor <;> rfl

/-- C7 (amended): `valid_nick` accepts a string exactly when it is empty or
matches the RFC 2812 nickname grammar; in particular a 9-character nick is
accepted, a 10-character one rejected, a leading digit rejected, and a
leading `[` accepted. -/
theorem C7_valid_nick_amended :
    (∀ s : List Char, valid_nick s = (s.isEmpty || spec_nick s)) ∧
      valid_nick ['F', 'o', 'o', 'B', 'a', 'r', '1', '2', '3'] = true ∧
      valid_nick ['F', 'o', 'o', 'B', 'a', 'r', '1', '2', '3', '4'] = false ∧
      valid_nick ['1', 'F', 'o', 'o', 'B', 'a', 'r', '1', '2'] = false ∧
      valid_nick ['[', 'a', 'b', 'c', 'd', 'e', 'f', 'g', 'h'] = true := by
  refine ⟨?_, by decide, by decide, by decide, by decide⟩
  intro s
  cases s with
  | nil => rfl
  | cons c cs =>
    show (if (letterChar c || specialChar c) = true then valid_nick_from 1 cs else false) =
      (false || spec_nick (c :: cs))
    rw [Bool.false_or]
    by_cases hc : (letterChar c || specialChar c) = true
    · rw [if_pos hc, valid_nick_from_pos cs 1 (le_refl 1) (by omega)]
      simp only [spec_nick, hc, Bool.true_and]
      rw [decide_eq_decide.mpr (by omega : cs.length + 1 ≤ 9 ↔ cs.length ≤ 8)]
    · rw [if_neg hc]
      simp [spec_nick, hc]

/-- At index 1 or more, `valid_channel_from` only checks that no remaining
character is a space, a `\x07` or a comma. -/
theorem valid_channel_from_pos :
    ∀ (cs : List Char) (i : Nat), 1 ≤ i →
      valid_channel_from i cs =
        cs.all (fun ch => !(ch = ' ' || ch.toNat = 7 || ch = ',')) := by
  intro cs
  induction cs with
  | nil => intro i _; rfl
  | cons c cs ih =>
    intro i h1
    simp only [valid_channel_from]
    rw [if_neg (by omega : ¬ i = 0)]
    split
    · next hforb =>
      rw [List.all_cons, hforb]
      rfl
    · next hforb =>
      simp only [Bool.not_eq_true] at hforb
      rw [ih (i + 1) (by omega), List.all_cons, hforb]
      rfl

/-- C8 (counterexample): `valid_channel` accepts the one-character name
`"#"`, which the claim (length at least 2) rejects. -/
theorem C8_hash_channel_accepted :
    valid_channel ['#'] = true ∧ spec_channel ['#'] = false := by
  constructor <;> rfl

/-- C8 (amended): `valid_channel` accepts a string exactly when it is empty,
or its head is `'#'` or `'&'` and no later character is `' '`, `','` or
`'\x07'` — there is no minimum-length requirement in the source. -/
theorem C8_valid_channel_amended :
    ∀ s : List Char, valid_channel s = valid_channel_closed s := by
  intro s
  cases s with
  | nil => rfl
  | cons c cs =>
    show (if (c = '#' || c = '&') = true then valid_channel_from 1 cs else false) =
      valid_channel_closed (c :: cs)
    by_cases hc : (c = '#' || c = '&') = true
    · rw [if_pos hc, valid_channel_from_pos cs 1 (le_refl 1)]
      simp only [valid_channel_closed, hc, Bool.true_and]
    · rw [if_neg hc]
      simp only [Bool.not_eq_true] at hc
      simp only [valid_channel_closed]
      rw [hc]
      rfl

/-- C10: a member holding `OperatorPrivilege` has `has_voice`, even without
`VoicePrivilege`, and therefore the voice gate of `Msg::handle_msg` never
drops a message whose sender is a channel operator. -/
theorem C10_op_has_voice :
    ∀ (c : Channel) (id : PeerId) (mem : Member),
      ChannelMode.OperatorPrivilege ∈ mem.flags →
      mem.has_voice = true ∧
        (c.member_with_id id = some mem → Msg.handle_msg c id ≠ MsgOutcome.dropped) := by
  intro c id mem hop
  have hv : mem.has_voice = true := by
    simp [Member.has_voice, Member.has_privilege, hop]
  refine ⟨hv, ?_⟩
  intro hmem
  simp only [Msg.handle_msg, hmem, hv, Bool.not_true, Bool.and_false]
  split <;> simp

/-- C10 (witness): the operator of the moderated demo channel has voice and
its message is not dropped. -/
theorem C10_op_has_voice_witness :
    Member.has_voice memOp = true ∧ Msg.handle_msg chanVoice 0 ≠ MsgOutcome.dropped := by
  have h := C10_op_has_voice chanVoice 0 memOp (by decide)
  exact ⟨h.1, h.2 (by decide)⟩

/-- Lookup after erasing a key: erased key gone, others untouched. -/
theorem mapFind_mapErase {κ α : Type} [DecidableEq κ] (k k' : κ) (l : List (κ × α)) :
    mapFind k (mapErase k' l) = if k = k' then none else mapFind k l := by
  induction l with
  | nil =>
    simp only [mapErase, mapFind]
    split <;> rfl
  | cons kv t ih =>
    simp only [mapErase, mapFind]
    split_ifs with h1 h2 h3 <;> simp_all [mapFind]

/-- The one-member demo channel satisfies the membership invariant. -/
theorem chanPair_invariant : nick_id_invariant chanPair := by
  intro p nick h
  simp only [chanPair, mapFind] at h
  split at h
  · next h0 =>
    injection h with h
    subst h
    exact ⟨memNickA, by decide, h0.symm ▸ rfl⟩
  · exact absurd h (by simp)

/-- C5 (counterexample): adding a member whose nick is already taken by a
different peer silently overwrites the `members` entry while keeping the old
`nicknames` entry, breaking the invariant: starting from a channel holding
nick `a` for peer 0, `add_member` of a member with nick `a` and id 1 returns
`true` and produces a state where `nicknames` still maps 0 to `a` but
`members[a].id = 1`. -/
theorem C5_add_member_breaks_invariant :
    nick_id_invariant chanPair ∧ (Channel.add_member chanPair memNickA2).2 = true ∧
      ¬ nick_id_invariant (Channel.add_member chanPair memNickA2).1 := by
  refine ⟨chanPair_invariant, by decide, ?_⟩
  intro hinv
  obtain ⟨mem, hfind, hid⟩ := hinv 0 [97] (by decide)
  rw [show mapFind ([97] : List Nat) (Channel.add_member chanPair memNickA2).1.members =
      some memNickA2 from by decide] at hfind
  injection hfind with h
  subst h
  exact absurd hid (by decide)

/-- C5 (amended): `remove_member` preserves the membership invariant, and
`add_member` preserves it provided the new member's nick is not already held
by a member with a different id. -/
theorem C5_member_maps_invariant (c : Channel) (m : Member) (pid : PeerId)
    (hinv : nick_id_invariant c)
    (hfresh : ∀ ex, mapFind m.nick c.members = some ex → ex.id = m.id) :
    nick_id_invariant (Channel.add_member c m).1 ∧
      nick_id_invariant (Channel.remove_member c pid).1 := by
  constructor
  · unfold Channel.add_member
    split
    · exact hinv
    · intro p nick h
      simp only [mapInsert, mapFind] at h
      by_cases hp : m.id = p
      · rw [if_pos hp] at h
        injection h with h
        subst h
        refine ⟨m, ?_, hp⟩
        simp [mapInsert, mapFind]
      · rw [if_neg hp, mapFind_mapErase, if_neg (fun hh => hp hh.symm)] at h
        obtain ⟨mem, hfind, hid⟩ := hinv p nick h
        have hnick : nick ≠ m.nick := by
          intro hEq
          subst hEq
          exact hp ((hfresh mem hfind).symm.trans hid)
        refine ⟨mem, ?_, hid⟩
        simp only [mapInsert, mapFind]
        rw [if_neg (fun hh => hnick hh.symm), mapFind_mapErase, if_neg hnick]
        exact hfind
  · unfold Channel.remove_member
    cases hn : mapFind pid c.nicknames with
    | none => exact hinv
    | some nick0 =>
      intro p nick h
      dsimp only at h
      rw [mapFind_mapErase] at h
      by_cases hp : p = pid
      · rw [if_pos hp] at h
        cases h
      · rw [if_neg hp] at h
        obtain ⟨mem, hfind, hid⟩ := hinv p nick h
        obtain ⟨mem0, hfind0, hid0⟩ := hinv pid nick0 hn
        have hnick : nick ≠ nick0 := by
          intro hEq
          subst hEq
          rw [hfind] at hfind0
          injection hfind0 with hh
          subst hh
          exact hp (hid.symm.trans hid0)
        refine ⟨mem, ?_, hid⟩
        dsimp only
        rw [mapFind_mapErase, if_neg hnick]
        exact hfind

/-- C5 (witness): the amended invariant theorem applied to the demo channel,
a member with a fresh nick, and the removal of peer 0. -/
theorem C5_member_maps_invariant_witness :
    nick_id_invariant (Channel.add_member chanPair memB).1 ∧
      nick_id_invariant (Channel.remove_member chanPair 0).1 := by
  refine C5_member_maps_invariant chanPair memB 0 chanPair_invariant ?_
  intro ex h
  rw [show mapFind memB.nick chanPair.members = none from by decide] at h
  cases h

/-- The candidate-consuming loop of the `'*'` arm is `dropWhile`. -/
theorem skipUntilChar_eq_dropWhile (next : Char) :
    ∀ s : List Char, skipUntilChar next s = s.dropWhile (fun c => c ≠ next) := by
  intro s
  induction s with
  | nil => rfl
  | cons c cs ih =>
    by_cases h : c = next
    · simp [skipUntilChar, List.dropWhile, h]
    · simp [skipUntilChar, List.dropWhile, h, ih]

/-- C2: `HostMask::matches` computes exactly the left-to-right glob matching
the claim describes (the only wildcard is `*`; `*` consumes candidate
characters until the next mask character matches; a trailing `*` matches any
remainder; other characters must match literally, case-sensitively, and the
candidate must be fully consumed). -/
theorem C2_hostmask_matches_glob :
    ∀ (pat s : List Char), HostMask.matches pat s = globMatch pat s := by
  intro pat
  induction pat with
  | nil => intro s; cases s <;> rfl
  | cons c cs ih =>
    intro s
    by_cases hc : c = '*'
    · subst hc
      cases cs with
      | nil => simp [HostMask.matches, globMatch]
      | cons next rest =>
        have hm : HostMask.matches ('*' :: next :: rest) s =
            HostMask.matches (next :: rest) (skipUntilChar next s) := by
          simp [HostMask.matches]
        have hg : globMatch ('*' :: next :: rest) s =
            globMatch (next :: rest) (s.dropWhile (fun x => x ≠ next)) := by
          simp [globMatch]
        rw [hm, hg, skipUntilChar_eq_dropWhile, ih]
    · cases s with
      | nil => simp [HostMask.matches, globMatch, hc]
      | cons t ts =>
        by_cases h2 : c = t
        · subst h2
          simp [HostMask.matches, globMatch, hc, ih]
        · simp [HostMask.matches, globMatch, hc, h2]

/-- Wrapped `end + (new.len - end + 1)` lands on `new.len + 1` (modulo the
word size): moving the stored prefix end by the `set_prefix` offset yields the
end of the new prefix. -/
theorem uadd_usub_cancel (e a : Nat) (he : e < uintSize) :
    uadd e (uadd (usub a e) 1) = (a + 1) % uintSize := by
  unfold uadd usub uintSize at *
  omega

/-- Composing the slice shifts of two successive `set_prefix` calls (the
second starting from a prefix of length `n1`) equals the single shift of one
direct call. -/
theorem shift_compose (sl : ASlice) (e n1 n2 : Nat) :
    ASlice.shift (ASlice.shift sl (uadd (usub n1 e) 1)) (uadd (usub n2 (n1 + 1)) 1) =
      ASlice.shift sl (uadd (usub n2 e) 1) := by
  unfold ASlice.shift uadd usub uintSize at *
  simp only [ASlice.mk.injEq]
  omega

/-- C9 (counterexample): on a parsed message without a prefix, `set_prefix`
is not idempotent in the claimed sense: the stored prefix slice stays `none`,
so each call prepends another `":p "` to the buffer, and two calls do not
yield the buffer of one call with the latest value. -/
theorem C9_no_prefix_not_idempotent :
    RawMessage.parse [74, 79, 73, 78] = Except.ok msgJoinNoPre ∧
      RawMessage.set_prefix (RawMessage.set_prefix msgJoinNoPre [97]) [98] ≠
        RawMessage.set_prefix msgJoinNoPre [98] := by
  constructor
  · rfl
  · decide

/-- C9 (amended): on a message whose prefix slice is present (as in every
parsed message whose line began with `':'`), two successive `set_prefix`
calls yield exactly the message of one call with the latest value — the same
raw buffer and the same prefix, command and parameter slices (and hence the
same `command()` and `params()` views).  The bounds say the stored prefix end
and the new prefix length fit in a machine word. -/
theorem C9_set_pre_idempotent (m : RawMessage) (p1 p2 : List Nat) (s e : Nat)
    (hpre : m.prefixSlice = some ⟨s, e⟩) (he : e < uintSize)
    (hp1 : p1.length + 1 < uintSize) :
    RawMessage.set_prefix (RawMessage.set_prefix m p1) p2 =
      RawMessage.set_prefix m p2 := by
  have he1 : uadd e (uadd (usub p1.length e) 1) = p1.length + 1 := by
    rw [uadd_usub_cancel e p1.length he, Nat.mod_eq_of_lt hp1]
  simp only [RawMessage.set_prefix, hpre]
  rw [he1]
  simp only [RawMessage.mk.injEq]
  refine ⟨?_, ?_, ?_, ?_⟩
  · congr 1
    congr 1
    rw [List.drop_succ_cons, List.drop_left]
  · rw [uadd_usub_cancel (p1.length + 1) p2.length hp1, uadd_usub_cancel e p2.length he]
  · exact shift_compose m.command e p1.length p2.length
  · rw [List.map_map]
    congr 1
    funext sl
    exact shift_compose sl e p1.length p2.length

/-- C9 (witness): the amended idempotence applied to the parsed message
`":a B"`. -/
theorem C9_set_pre_idempotent_witness :
    RawMessage.set_prefix (RawMessage.set_prefix msgWithPre [99, 99]) [100] =
      RawMessage.set_prefix msgWithPre [100] :=
  C9_set_pre_idempotent msgWithPre [99, 99] [100] 1 2 rfl (by decide) (by decide)

/-- Rust's `slice::split` always yields at least one piece. -/
theorem splitOnByte_ne_nil (sep : Nat) : ∀ l, splitOnByte sep l ≠ [] := by
  intro l
  induction l with
  | nil => simp [splitOnByte]
  | cons b t _ =>
    simp only [splitOnByte]
    split
    · simp
    · split <;> simp

/-- The tail of the parser never fails: `split` always produces a first
piece, so the second `"does not contain a command"` arm of the source is
unreachable. -/
theorem parseAfter_ok (raw msg : List Nat) (preSl : Option ASlice) :
    ∃ m, RawMessage.parseAfter raw msg preSl = Except.ok m := by
  unfold RawMessage.parseAfter
  cases hpos : position msg [32, 58] with
  | some tp =>
    dsimp only
    obtain ⟨c0, r0, hsplit⟩ :=
      List.exists_cons_of_ne_nil (splitOnByte_ne_nil 32 (msg.take tp))
    rw [hsplit]
    exact ⟨_, rfl⟩
  | none =>
    dsimp only
    obtain ⟨c0, r0, hsplit⟩ :=
      List.exists_cons_of_ne_nil (splitOnByte_ne_nil 32 msg)
    rw [hsplit]
    exact ⟨_, rfl⟩

/-- `position_elem` finds nothing exactly when the element is absent. -/
theorem position_elem_none_iff (x : Nat) :
    ∀ l : List Nat, position_elem x l = none ↔ x ∉ l := by
  intro l
  induction l with
  | nil => simp [position_elem]
  | cons y t ih =>
    simp only [position_elem]
    split
    · next h => simp [h]
    · next h =>
      simp [Option.map_eq_none', ih, List.mem_cons, (show ¬ x = y from fun hh => h hh.symm)]

/-- C6 (counterexample): the empty line parses successfully — the split of
the empty middle part yields one empty piece, which becomes an empty command
slice — so parse does not return an error for the empty input. -/
theorem C6_parse_empty_ok :
    RawMessage.parse [] = Except.ok ⟨[], none, ⟨0, 0⟩, []⟩ := rfl

/-- C6 (amended): `RawMessage::parse` returns an error exactly when the line
begins with `':'` but contains no space (a prefix with no command after it);
every other line — the empty line included — parses successfully. -/
theorem C6_parse_error_iff :
    ∀ l : List Nat, (∃ err, RawMessage.parse l = Except.error err) ↔
      (l.head? = some 58 ∧ 32 ∉ l) := by
  intro l
  unfold RawMessage.parse
  by_cases hh : l.head? = some 58
  · rw [if_pos hh]
    cases hp : position_elem 32 l with
    | none =>
      constructor
      · intro _
        exact ⟨hh, (position_elem_none_iff 32 l).mp hp⟩
      · intro _
        exact ⟨_, rfl⟩
    | some v =>
      constructor
      · intro hex
        obtain ⟨err, herr⟩ := hex
        obtain ⟨m, hm⟩ := parseAfter_ok l (l.drop (v + 1)) (some ⟨1, v⟩)
        dsimp only at herr
        rw [hm] at herr
        cases herr
      · intro hmem
        exfalso
        have hnone := (position_elem_none_iff 32 l).mpr hmem.2
        rw [hp] at hnone
        cases hnone
  · rw [if_neg hh]
    constructor
    · intro hex
      obtain ⟨err, herr⟩ := hex
      obtain ⟨m, hm⟩ := parseAfter_ok l l none
      rw [hm] at herr
      cases herr
    · intro hcon
      exact absurd hcon.1 hh

/-- Finding the first `' '` after bytes that contain none. -/
theorem position_elem_append_not_mem :
    ∀ (a rest : List Nat), 32 ∉ a → position_elem 32 (a ++ 32 :: rest) = some a.length := by
  intro a rest
  induction a with
  | nil => intro _; simp [position_elem]
  | cons x t ih =>
    intro h
    have hx : ¬ x = 32 := fun hEq => h (by rw [← hEq]; exact List.mem_cons_self x t)
    simp only [List.cons_append, position_elem, List.append_eq]
    rw [if_neg hx, ih (fun hm => h (List.mem_cons_of_mem _ hm))]
    simp [List.length_cons]

/-- No `" :"` occurrence inside bytes with no space. -/
theorem position_none_not_mem :
    ∀ l : List Nat, 32 ∉ l → position l [32, 58] = none := by
  intro l
  induction l with
  | nil => intro _; rfl
  | cons x t ih =>
    intro h
    have hx : (32 : Nat) ≠ x := fun hEq => h (by rw [hEq]; exact List.mem_cons_self x t)
    simp only [position]
    rw [if_neg (by simp [List.isPrefixOf, hx]), ih (fun hm => h (List.mem_cons_of_mem _ hm))]
    rfl

/-- Skipping a space-free head shifts the position of the first `" :"`. -/
theorem position_append_not_mem :
    ∀ (a b : List Nat), 32 ∉ a →
      position (a ++ b) [32, 58] = (position b [32, 58]).map (· + a.length) := by
  intro a b
  induction a with
  | nil =>
    intro _
    simp only [List.nil_append, List.length_nil]
    cases position b [32, 58] <;> simp
  | cons x t ih =>
    intro h
    have hx : (32 : Nat) ≠ x := fun hEq => h (by rw [hEq]; exact List.mem_cons_self x t)
    simp only [List.cons_append, position, List.append_eq]
    rw [if_neg (by simp [List.isPrefixOf, hx]), ih (fun hm => h (List.mem_cons_of_mem _ hm))]
    cases position b [32, 58] <;> simp [List.length_cons, Nat.add_assoc]

/-- The middle part followed by the sentinel always starts with a space. -/
theorem midBytes_sentinel_head (ms : List (List Nat)) (lp : List Nat) :
    ∃ t, midBytes ms ++ 32 :: 58 :: lp = 32 :: t := by
  cases ms with
  | nil => exact ⟨58 :: lp, rfl⟩
  | cons m ms => exact ⟨m ++ midBytes ms ++ 32 :: 58 :: lp, by simp [midBytes]⟩

/-- The first `" :"` of the rendered middles-plus-trailing is exactly the
sentinel: middle parameters contain no space and start with no `':'`, so the
space before each of them is never followed by `':'`. -/
theorem position_sentinel :
    ∀ (ms : List (List Nat)) (lp : List Nat),
      (∀ m ∈ ms, 32 ∉ m ∧ m.head? ≠ some 58) →
      position (midBytes ms ++ 32 :: 58 :: lp) [32, 58] = some (midBytes ms).length := by
  intro ms
  induction ms with
  | nil =>
    intro lp _
    simp only [midBytes, List.nil_append, position]
    rw [if_pos (by simp [List.isPrefixOf])]
    rfl
  | cons m ms ih =>
    intro lp h
    obtain ⟨hm32, hmh⟩ := h m (List.mem_cons_self m ms)
    have hrest := fun m' hm' => h m' (List.mem_cons_of_mem _ hm')
    simp only [midBytes, List.cons_append, List.append_eq, List.append_assoc, position]
    rw [if_neg ?notpre]
    case notpre =>
      cases m with
      | nil =>
        obtain ⟨t, ht⟩ := midBytes_sentinel_head ms lp
        simp only [List.nil_append]
        rw [ht]
        simp [List.isPrefixOf]
      | cons c m' =>
        have hc : ¬ (58 : Nat) = c := by
          intro hEq
          exact hmh (by rw [← hEq]; rfl)
        simp [List.isPrefixOf, List.cons_append, List.append_eq, hc]
    rw [position_append_not_mem m _ hm32, ih lp hrest]
    simp only [Option.map_some', List.length_cons, List.length_append]
    congr 1
    omega

/-- `split` of space-free bytes is one piece. -/
theorem splitOnByte_not_mem :
    ∀ l : List Nat, 32 ∉ l → splitOnByte 32 l = [l] := by
  intro l
  induction l with
  | nil => intro _; rfl
  | cons x t ih =>
    intro h
    have hx : ¬ x = 32 := fun hEq => h (by rw [← hEq]; exact List.mem_cons_self x t)
    simp only [splitOnByte]
    rw [if_neg hx, ih (fun hm => h (List.mem_cons_of_mem _ hm))]

/-- Splitting after a space-free head peels off one piece. -/
theorem splitOnByte_append :
    ∀ (a b : List Nat), 32 ∉ a →
      splitOnByte 32 (a ++ 32 :: b) = a :: splitOnByte 32 b := by
  intro a b
  induction a with
  | nil => intro _; simp [splitOnByte]
  | cons x t ih =>
    intro h
    have hx : ¬ x = 32 := fun hEq => h (by rw [← hEq]; exact List.mem_cons_self x t)
    simp only [List.cons_append, splitOnByte, List.append_eq]
    rw [if_neg hx, ih (fun hm => h (List.mem_cons_of_mem _ hm))]

/-- Splitting the rendered command-plus-middles recovers the pieces. -/
theorem splitOnByte_cmd_mid :
    ∀ (ms : List (List Nat)) (cmd : List Nat), 32 ∉ cmd → (∀ m ∈ ms, 32 ∉ m) →
      splitOnByte 32 (cmd ++ midBytes ms) = cmd :: ms := by
  intro ms
  induction ms with
  | nil =>
    intro cmd h _
    simp only [midBytes, List.append_nil]
    exact splitOnByte_not_mem cmd h
  | cons m ms ih =>
    intro cmd h hmem
    simp only [midBytes]
    rw [splitOnByte_append cmd _ h,
      ih m (hmem m (List.mem_cons_self _ _)) (fun m' hm' => hmem m' (List.mem_cons_of_mem _ hm'))]

/-- The renderer's parameter bytes, split into middles and the `" :"`-marked
trailing parameter. -/
theorem paramBytes_concat :
    ∀ (ms : List (List Nat)) (lp : List Nat),
      paramBytes (ms ++ [lp]) = midBytes ms ++ 32 :: 58 :: lp := by
  intro ms
  induction ms with
  | nil => intro lp; rfl
  | cons m ms ih =>
    intro lp
    cases ms with
    | nil => simp [paramBytes, midBytes]
    | cons m2 ms2 =>
      simp only [List.cons_append, paramBytes, List.append_eq] at ih ⊢
      rw [ih]
      simp [midBytes, List.append_assoc]

/-- Dropping past a space-free head and one space. -/
theorem drop_append_succ (a X : List Nat) (x : Nat) :
    (a ++ x :: X).drop (a.length + 1) = X := by
  rw [← List.drop_drop, List.drop_left]
  rfl

/-- Slicing the middle-parameter slices out of the raw buffer gives back the
rendered middle parameters. -/
theorem extract_middles :
    ∀ (ms : List (List Nat)) (raw : List Nat) (k : Nat) (suffix : List Nat),
      raw.drop k = midBytes ms ++ suffix →
      (middleSlices (k + 1) ms).map (fun sl => sl.sliceVec raw) = ms := by
  intro ms
  induction ms with
  | nil => intro raw k suffix _; rfl
  | cons m ms ih =>
    intro raw k suffix h
    simp only [midBytes, List.cons_append, List.append_assoc] at h
    have hdrop1 : raw.drop (k + 1) = m ++ (midBytes ms ++ suffix) := by
      rw [← List.drop_drop, h]
      rfl
    have hfirst : (ASlice.sliceVec ⟨k + 1, k + 1 + m.length⟩ raw) = m := by
      unfold ASlice.sliceVec
      dsimp only
      rw [hdrop1, show k + 1 + m.length - (k + 1) = m.length by omega, List.take_left]
    have hrest : raw.drop (k + m.length + 1) = midBytes ms ++ suffix := by
      rw [show k + m.length + 1 = k + (m.length + 1) by omega, ← List.drop_drop, h,
        List.drop_succ_cons, List.drop_left]
    simp only [middleSlices, List.map_cons]
    rw [hfirst]
    congr 1
    rw [show k + 1 + m.length + 1 = (k + m.length + 1) + 1 by omega]
    exact ih raw (k + m.length + 1) suffix hrest

/-- The main parsing lemma: `parseAfter` on a rendered line recovers the
command and the parameters.  `cs` is the command start (the prefix length),
`raw` the whole line, and the rendered part after the prefix is
`cmd ++ paramBytes ps`. -/
theorem parseAfter_spec :
    ∀ (ps : List (List Nat)) (cmd raw : List Nat) (preSl : Option ASlice) (cs : Nat),
      (match preSl with | some v => v.stop + 1 | none => 0) = cs →
      raw.drop cs = cmd ++ paramBytes ps →
      raw.length = cs + cmd.length + (paramBytes ps).length →
      32 ∉ cmd →
      (∀ m ∈ ps.dropLast, 32 ∉ m ∧ m.head? ≠ some 58) →
      ∃ msg, RawMessage.parseAfter raw (cmd ++ paramBytes ps) preSl = Except.ok msg ∧
        msg.raw_message = raw ∧ msg.prefixSlice = preSl ∧
        msg.commandBytes = cmd ∧ msg.paramsBytes = ps := by
  intro ps cmd raw preSl cs hcs hdrop hlen hcmd hmid
  rcases List.eq_nil_or_concat ps with hps | ⟨ms, lp, hps⟩
  · subst hps
    simp only [paramBytes, List.append_nil] at hdrop hlen ⊢
    unfold RawMessage.parseAfter
    rw [hcs, position_none_not_mem cmd hcmd]
    dsimp only
    rw [splitOnByte_not_mem cmd hcmd]
    refine ⟨_, rfl, rfl, rfl, ?_, rfl⟩
    unfold RawMessage.commandBytes ASlice.sliceVec
    dsimp only
    rw [hdrop, show cs + cmd.length - cs = cmd.length by omega, List.take_length]
  · rw [List.concat_eq_append] at hps
    subst hps
    have hmid' : ∀ m ∈ ms, 32 ∉ m ∧ m.head? ≠ some 58 := by
      intro m hm
      exact hmid m (by rw [List.dropLast_concat]; exact hm)
    rw [paramBytes_concat ms lp] at hdrop hlen ⊢
    unfold RawMessage.parseAfter
    rw [hcs, position_append_not_mem cmd _ hcmd, position_sentinel ms lp hmid']
    simp only [Option.map_some']
    have htake : (cmd ++ (midBytes ms ++ 32 :: 58 :: lp)).take ((midBytes ms).length + cmd.length) =
        cmd ++ midBytes ms := by
      rw [← List.append_assoc,
        show (midBytes ms).length + cmd.length = (cmd ++ midBytes ms).length by
          simp [List.length_append]; omega]
      exact List.take_left _ _
    rw [htake, splitOnByte_cmd_mid ms cmd hcmd (fun m hm => (hmid' m hm).1)]
    have hdrop2 : raw.drop (cs + cmd.length) = midBytes ms ++ 32 :: 58 :: lp := by
      rw [← List.drop_drop, hdrop, List.drop_left]
    refine ⟨_, rfl, rfl, rfl, ?_, ?_⟩
    · unfold RawMessage.commandBytes ASlice.sliceVec
      dsimp only
      rw [hdrop, show cs + cmd.length - cs = cmd.length by omega, List.take_left]
    · unfold RawMessage.paramsBytes
      dsimp only
      rw [List.map_append]
      have hmids := extract_middles ms raw (cs + cmd.length) (32 :: 58 :: lp) hdrop2
      rw [hmids]
      congr 1
      simp only [List.map_cons, List.map_nil]
      congr 1
      unfold ASlice.sliceVec
      dsimp only
      have hstart : raw.drop (cs + ((midBytes ms).length + cmd.length) + 2) = lp := by
        rw [show cs + ((midBytes ms).length + cmd.length) + 2 =
            (cs + cmd.length) + ((midBytes ms).length + 1 + 1) by omega,
          ← List.drop_drop, hdrop2, ← List.drop_drop, drop_append_succ]
        rfl
      rw [hstart]
      have hlen2 : raw.length - (cs + ((midBytes ms).length + cmd.length) + 2) = lp.length := by
        simp only [List.length_append, List.length_cons] at hlen
        omega
      rw [hlen2, List.take_length]

/-- C1: rendering a legal message with `new_raw` and parsing the buffer back
recovers the prefix, the command and the parameter list exactly (so in
particular up to whitespace normalisation of the trailing parameter).
Legality: the command is nonempty, contains no space and does not start with
`':'` (true of every `Command::to_bytes` output); the prefix contains no
space; every parameter except the last is space-free and does not start with
`':'`; the trailing parameter is arbitrary. -/
theorem C1_parse_render_roundtrip (command : List Nat) (params : List (List Nat))
    (pre : Option (List Nat))
    (hne : command ≠ []) (hsp : 32 ∉ command) (hcolon : command.head? ≠ some 58)
    (hpre : ∀ p, pre = some p → 32 ∉ p)
    (hmid : ∀ m ∈ params.dropLast, 32 ∉ m ∧ m.head? ≠ some 58) :
    ∃ msg,
      RawMessage.parse (RawMessage.new_raw command params pre).raw_message = Except.ok msg ∧
        msg.preBytes = pre ∧ msg.commandBytes = command ∧ msg.paramsBytes = params := by
  cases pre with
  | none =>
    have hraw : (RawMessage.new_raw command params none).raw_message =
        command ++ paramBytes params := rfl
    rw [hraw]
    unfold RawMessage.parse
    have hhead : ¬ ((command ++ paramBytes params).head? = some 58) := by
      cases command with
      | nil => exact absurd rfl hne
      | cons c t =>
        simp only [List.cons_append, List.head?_cons]
        simpa using hcolon
    rw [if_neg hhead]
    obtain ⟨msg, hok, hraweq, hpres, hcmdb, hps⟩ :=
      parseAfter_spec params command (command ++ paramBytes params) none 0 rfl rfl
        (by simp [List.length_append]) hsp hmid
    refine ⟨msg, hok, ?_, hcmdb, hps⟩
    simp [RawMessage.preBytes, hpres]
  | some p =>
    have h32p : 32 ∉ p := hpre p rfl
    have hraw : (RawMessage.new_raw command params (some p)).raw_message =
        (58 :: p) ++ 32 :: (command ++ paramBytes params) := by
      simp [RawMessage.new_raw, List.cons_append, List.append_assoc]
    rw [hraw]
    unfold RawMessage.parse
    rw [if_pos
      (show ((58 :: p) ++ 32 :: (command ++ paramBytes params)).head? = some 58 from rfl)]
    have hfind : position_elem 32 ((58 :: p) ++ 32 :: (command ++ paramBytes params)) =
        some (p.length + 1) := by
      rw [position_elem_append_not_mem (58 :: p) _ (by simp [h32p])]
      simp [List.length_cons]
    rw [hfind]
    dsimp only
    have hdropped : ((58 :: p) ++ 32 :: (command ++ paramBytes params)).drop (p.length + 1 + 1) =
        command ++ paramBytes params := by
      rw [show p.length + 1 + 1 = (58 :: p).length + 1 by simp [List.length_cons]]
      exact drop_append_succ _ _ _
    rw [hdropped]
    obtain ⟨msg, hok, hraweq, hpres, hcmdb, hps⟩ :=
      parseAfter_spec params command ((58 :: p) ++ 32 :: (command ++ paramBytes params))
        (some ⟨1, p.length + 1⟩) (p.length + 2) rfl
        (by
          rw [show p.length + 2 = (58 :: p).length + 1 by simp [List.length_cons]]
          exact drop_append_succ _ _ _)
        (by simp [List.length_append, List.length_cons]; omega)
        hsp hmid
    refine ⟨msg, hok, ?_, hcmdb, hps⟩
    simp only [RawMessage.preBytes, hpres, hraweq, Option.map_some']
    congr 1
    unfold ASlice.sliceVec
    dsimp only
    rw [show ((58 :: p) ++ 32 :: (command ++ paramBytes params)) =
        58 :: (p ++ 32 :: (command ++ paramBytes params)) from rfl]
    simp only [List.drop_one, List.tail_cons]
    rw [show p.length + 1 - 1 = p.length by omega, List.take_left]

/-- C1 (witness): the round trip at the concrete message
`:n JOIN #c :hi x` (prefix `n`, command `JOIN`, middle parameter `#c`,
trailing parameter `hi x` with an inner space). -/
theorem C1_parse_render_roundtrip_witness :
    ∃ msg,
      RawMessage.parse
          (RawMessage.new_raw [74, 79, 73, 78] [[35, 99], [104, 105, 32, 120]]
            (some [110])).raw_message = Except.ok msg ∧
        msg.preBytes = some [110] ∧ msg.commandBytes = [74, 79, 73, 78] ∧
        msg.paramsBytes = [[35, 99], [104, 105, 32, 120]] :=
  C1_parse_render_roundtrip [74, 79, 73, 78] [[35, 99], [104, 105, 32, 120]] (some [110])
    (by decide) (by decide) (by decide)
    (by
      intro p hp
      injection hp with h
      subst h
      decide)
    (by decide)

end Irc
